import Mathlib

/-!
Verification of the deferred-mutation query layer: `QuerySet` (the View over
an ordered sequence of record identifiers) and `Entity` (the single-record
wrapper), as implemented in src/QuerySet.js and src/Entity.js, working over
the EntityManager contract (id attribute name, id-to-record map, append-only
mutation log).

JavaScript values relevant to the claims are embedded as `Option Int`
(`none` playing the role of `undefined`), plain objects as association
lists with insertion order, and lodash collection helpers by their
documented input-output behaviour (`reject` = filter by the negated
predicate, `sortByAll` = stable ascending lexicographic sort by the given
field values, with `undefined` ordered after every number).
-/

namespace ReduxOrm

/-- A JavaScript value in this embedding: an integer, or `none` for
JavaScript's `undefined` (a missing property reads as `undefined`). -/
abbrev JsVal := Option Int

abbrev FieldName := String

/-- A plain JavaScript object: an association list from field name to value,
in insertion order. Objects built by the source always carry distinct keys;
lemmas that need distinctness take a `Nodup` hypothesis. -/
abbrev JsRec := List (FieldName × JsVal)

/-- An entity identifier as it flows through the source: any JS value. -/
abbrev Id := JsVal

/-- Property read `e[k]`: the value of the first entry named `k`, or
`undefined` when there is none. -/
def jsRead (e : JsRec) (k : FieldName) : JsVal :=
  match e.find? (fun p => p.1 == k) with
  | some p => p.2
  | none => none

/-- Property write `e[k] = v` as performed by `Object.assign`: overwrite an
existing entry in place (JS objects keep a key's original position), or
append a new entry at the end. -/
def setKey (e : JsRec) (k : FieldName) (v : JsVal) : JsRec :=
  if e.any (fun p => p.1 == k) then
    e.map (fun p => if p.1 == k then (k, v) else p)
  else
    e ++ [(k, v)]

/-- `Object.assign(target, src)`: copy every field of `src` onto `target`,
left to right. -/
def objAssign (target src : JsRec) : JsRec :=
  src.foldl (fun acc p => setKey acc p.1 p.2) target

/-- The argument of `update`, per the spec's design note on the dual-shaped
updater: a field-to-value mapping with shallow-merge semantics, a
record-transform function, or a value of neither shape (the case the spec's
`InvalidUpdater` error is about). -/
inductive Updater where
  | merge (m : JsRec)
  | transform (f : JsRec → JsRec)
  | invalid

/-- A mutation descriptor as pushed onto `manager.mutations`:
`{type: UPDATE, payload: {idArr, updater}}` or `{type: DELETE, payload: idArr}`. -/
inductive Mutation where
  | update (idArr : List Id) (updater : Updater)
  | delete (idArr : List Id)

/-- The slice of the EntityManager contract consumed by `QuerySet` and
`Entity`: `getIdAttribute()`, `getEntityMap()` and the `mutations` log. -/
structure Manager where
  idAttribute : FieldName
  entityMap : Id → Option JsRec
  mutations : List Mutation

/-- `manager.mutations.push(mu)`. -/
def Manager.push (m : Manager) (mu : Mutation) : Manager :=
  { m with mutations := m.mutations ++ [mu] }

/-- A `QuerySet`: an EntityManager reference plus an ordered sequence of
record identifiers. -/
structure QuerySet where
  manager : Manager
  idArr : List Id

/-- `QuerySet._new(ids)`: a new QuerySet over `ids` with the same manager. -/
def QuerySet.mkNew (q : QuerySet) (ids : List Id) : QuerySet :=
  ⟨q.manager, ids⟩

/-- One element of `getFullEntities()`:
`Object.assign({[idAttribute]: id}, manager.getEntityMap()[id])`; when the
map holds nothing for `id`, `Object.assign` skips the `undefined` source. -/
def fullEntity (m : Manager) (id : Id) : JsRec :=
  objAssign [(m.idAttribute, id)] ((m.entityMap id).getD [])

/-- `QuerySet.getFullEntities()`. -/
def QuerySet.getFullEntities (q : QuerySet) : List JsRec :=
  q.idArr.map (fun id => fullEntity q.manager id)

/-- `QuerySet.count()`. -/
def QuerySet.count (q : QuerySet) : Nat := q.idArr.length

/-- `QuerySet.all()`. -/
def QuerySet.all (q : QuerySet) : QuerySet := q.mkNew q.idArr

/-- A filter/exclude criterion: a field-to-value lookup object, or a
predicate over the full record (the source dispatches on
`typeof lookupObj === 'function'`). -/
inductive Criteria where
  | fields (m : JsRec)
  | pred (p : JsRec → Bool)

/-- Modelled from the spec: the helper `match(lookupObj, entity)` is defined
in src/utils.js, which is not among the sources. Per the spec, a lookup
object matches by exact equality on every listed field (logical AND across
fields), and `exclude` uses the same matching rule as `filter`, so a
predicate criterion matches exactly when the predicate returns true. -/
def matchCriteria : Criteria → JsRec → Bool
  | .fields m, e => m.all (fun kv => jsRead e kv.1 == kv.2)
  | .pred p, e => p e

/-- `QuerySet.filter(lookupObj)`: keep, in order, the full entities that
match, then read each kept entity's id attribute off the merged record. -/
def QuerySet.filter (q : QuerySet) (c : Criteria) : QuerySet :=
  let fullEntities := q.getFullEntities
  let entities :=
    match c with
    | .pred p => fullEntities.filter p
    | .fields m => fullEntities.filter (fun e => matchCriteria (.fields m) e)
  q.mkNew (entities.map (fun e => jsRead e q.manager.idAttribute))

/-- `QuerySet.exclude(lookupObj)`: lodash `reject` keeps, in order, the full
entities for which `match` is false, then reads each id attribute. -/
def QuerySet.exclude (q : QuerySet) (c : Criteria) : QuerySet :=
  let entities := q.getFullEntities.filter (fun e => ! matchCriteria c e)
  q.mkNew (entities.map (fun e => jsRead e q.manager.idAttribute))

/-- Sort key of a full entity under `sortByAll`: its values at the field
names, left to right. lodash's comparator sorts numbers ascending with
`undefined` after every number, which is exactly the linear order of
`WithTop Int`; key lists are compared lexicographically, left to right. -/
def sortKey (fieldNames : List FieldName) (e : JsRec) : List (WithTop Int) :=
  fieldNames.map (fun fn => (jsRead e fn : WithTop Int))

/-- The comparison `sortByAll` sorts by: sort keys in ascending
lexicographic order. -/
def entityLe (fieldNames : List FieldName) (e1 e2 : JsRec) : Prop :=
  sortKey fieldNames e1 ≤ sortKey fieldNames e2

instance entityLeDec (fieldNames : List FieldName) : DecidableRel (entityLe fieldNames) :=
  fun e1 e2 => inferInstanceAs (Decidable (sortKey fieldNames e1 ≤ sortKey fieldNames e2))

/-- lodash `sortByAll(entities, fieldNames)`: a stable ascending sort by the
sort keys. Insertion sort is stable, so it has the same input-output
behaviour. -/
def sortByAll (fieldNames : List FieldName) (entities : List JsRec) : List JsRec :=
  List.insertionSort (entityLe fieldNames) entities

/-- `QuerySet.orderBy(...fieldNames)`. -/
def QuerySet.orderBy (q : QuerySet) (fieldNames : List FieldName) : QuerySet :=
  let entities := sortByAll fieldNames q.getFullEntities
  q.mkNew (entities.map (fun e => jsRead e q.manager.idAttribute))

/-- `QuerySet.update(updater)`: push one Update descriptor carrying this
QuerySet's `idArr` and the updater, unconditionally. -/
def QuerySet.update (q : QuerySet) (u : Updater) : QuerySet :=
  { q with manager := q.manager.push (.update q.idArr u) }

/-- `QuerySet.delete()`: push one Delete descriptor carrying `idArr`. -/
def QuerySet.delete (q : QuerySet) : QuerySet :=
  { q with manager := q.manager.push (.delete q.idArr) }

/-- The `Entity` wrapper: the manager reference, the field names captured at
construction (`Object.keys(props)`), and the current own field values. -/
structure Entity where
  manager : Manager
  fieldNames : List FieldName
  props : JsRec

/-- `new Entity(manager, props)`: `Object.assign(this, {manager}, props)`
and `this.fieldNames = Object.keys(props)`. -/
def Entity.ofProps (manager : Manager) (props : JsRec) : Entity :=
  { manager, fieldNames := props.map Prod.fst, props }

/-- `Entity.getId()`: read the manager's id attribute off the wrapper's own
fields. -/
def Entity.getId (e : Entity) : Id := jsRead e.props e.manager.idAttribute

/-- `Entity.toPlain()`: build an object assigning `obj[f] = this[f]` for
each captured field name in order. -/
def Entity.toPlain (e : Entity) : JsRec :=
  e.fieldNames.foldl (fun obj fn => setKey obj fn (jsRead e.props fn)) []

/-- `Entity.update(mergeObj)`: `Object.assign(this, mergeObj)` first (a
function or primitive source contributes no own enumerable fields, so only
the merge shape changes the props), then push one Update descriptor whose
id is read after the merge. -/
def Entity.update (e : Entity) (u : Updater) : Entity :=
  let merged :=
    match u with
    | .merge m => objAssign e.props m
    | _ => e.props
  { manager := e.manager.push (.update [jsRead merged e.manager.idAttribute] u),
    fieldNames := e.fieldNames,
    props := merged }

/-- `Entity.set(propertyName, value)`. -/
def Entity.set (e : Entity) (k : FieldName) (v : JsVal) : Entity :=
  e.update (.merge [(k, v)])

/-- `Entity.delete()`: push one Delete descriptor carrying `[this.getId()]`. -/
def Entity.delete (e : Entity) : Entity :=
  { e with manager := e.manager.push (.delete [e.getId]) }

/-- Coherence of a QuerySet with the entity map: materialising any of its
identifiers yields a full record whose id field reads back as that same
identifier (no stored record overrides the manager's id attribute with a
different value). -/
def idCoherent (q : QuerySet) : Prop :=
  ∀ id ∈ q.idArr, jsRead (fullEntity q.manager id) q.manager.idAttribute = id

instance idCoherentDec (q : QuerySet) : Decidable (idCoherent q) :=
  inferInstanceAs (Decidable
    (∀ id ∈ q.idArr, jsRead (fullEntity q.manager id) q.manager.idAttribute = id))

/-! Basic lemmas about the JS object operations. -/

theorem objAssign_nil (t : JsRec) : objAssign t [] = t := rfl

theorem objAssign_cons (t : JsRec) (p : FieldName × JsVal) (m : JsRec) :
    objAssign t (p :: m) = objAssign (setKey t p.1 p.2) m := rfl

theorem jsRead_nil (k : FieldName) : jsRead [] k = none := rfl

theorem jsRead_cons_pos {p : FieldName × JsVal} {k : FieldName} (l : JsRec)
    (h : (p.1 == k) = true) : jsRead (p :: l) k = p.2 := by
  unfold jsRead
  rw [List.find?_cons_of_pos l h]

theorem jsRead_cons_neg {p : FieldName × JsVal} {k : FieldName} (l : JsRec)
    (h : (p.1 == k) = false) : jsRead (p :: l) k = jsRead l k := by
  unfold jsRead
  rw [List.find?_cons_of_neg l (by simp [h])]

theorem jsRead_map_overwrite (k : FieldName) (v : JsVal) (e : JsRec)
    (h : (e.any fun p => p.1 == k) = true) :
    jsRead (e.map fun p => if p.1 == k then (k, v) else p) k = v := by
  induction e with
  | nil => simp at h
  | cons p e ih =>
    rw [List.map_cons]
    by_cases hp : (p.1 == k) = true
    · rw [if_pos hp, jsRead_cons_pos _ (by simp)]
    · rw [if_neg hp, jsRead_cons_neg _ (by simpa using hp)]
      exact ih (by simpa [List.any_cons, hp] using h)

theorem jsRead_map_other (k k' : FieldName) (v : JsVal) (hk : k' ≠ k) (e : JsRec) :
    jsRead (e.map fun p => if p.1 == k then (k, v) else p) k' = jsRead e k' := by
  induction e with
  | nil => rfl
  | cons p e ih =>
    rw [List.map_cons]
    by_cases hp : (p.1 == k) = true
    · have hp1 : p.1 = k := by simpa using hp
      rw [if_pos hp, jsRead_cons_neg _ (by simp; exact fun hc => hk hc.symm),
        jsRead_cons_neg _ (by simp [hp1]; exact fun hc => hk hc.symm)]
      exact ih
    · rw [if_neg hp]
      by_cases hp' : (p.1 == k') = true
      · rw [jsRead_cons_pos _ hp', jsRead_cons_pos _ hp']
      · rw [jsRead_cons_neg _ (by simpa using hp'), jsRead_cons_neg _ (by simpa using hp')]
        exact ih

theorem jsRead_append_fresh_right (e1 e2 : JsRec) (k : FieldName)
    (h : ∀ p ∈ e2, (p.1 == k) = false) :
    jsRead (e1 ++ e2) k = jsRead e1 k := by
  induction e1 with
  | nil =>
    rw [List.nil_append, jsRead_nil]
    induction e2 with
    | nil => rfl
    | cons p e2 ih2 =>
      rw [jsRead_cons_neg _ (h p (List.mem_cons_self p e2))]
      exact ih2 (fun q hq => h q (List.mem_cons_of_mem p hq))
  | cons p e1 ih =>
    rw [List.cons_append]
    by_cases hp : (p.1 == k) = true
    · rw [jsRead_cons_pos _ hp, jsRead_cons_pos _ hp]
    · rw [jsRead_cons_neg _ (by simpa using hp), jsRead_cons_neg _ (by simpa using hp)]
      exact ih

theorem jsRead_append_fresh_left (e1 e2 : JsRec) (k : FieldName)
    (h : ∀ p ∈ e1, (p.1 == k) = false) :
    jsRead (e1 ++ e2) k = jsRead e2 k := by
  induction e1 with
  | nil => rw [List.nil_append]
  | cons p e1 ih =>
    rw [List.cons_append, jsRead_cons_neg _ (h p (List.mem_cons_self p e1))]
    exact ih (fun q hq => h q (List.mem_cons_of_mem p hq))

theorem any_eq_false_of_not {e : JsRec} {k : FieldName}
    (h : ¬(e.any fun p => p.1 == k) = true) : ∀ p ∈ e, (p.1 == k) = false := by
  intro p hp
  by_contra hc
  exact h (List.any_eq_true.mpr ⟨p, hp, by simpa using hc⟩)

theorem jsRead_setKey_self (e : JsRec) (k : FieldName) (v : JsVal) :
    jsRead (setKey e k v) k = v := by
  by_cases h : (e.any fun p => p.1 == k) = true
  · rw [setKey, if_pos h]
    exact jsRead_map_overwrite k v e h
  · rw [setKey, if_neg h, jsRead_append_fresh_left e _ k (any_eq_false_of_not h),
      jsRead_cons_pos _ (by simp)]

theorem jsRead_setKey_other (e : JsRec) (k k' : FieldName) (v : JsVal)
    (hk : k' ≠ k) : jsRead (setKey e k v) k' = jsRead e k' := by
  by_cases h : (e.any fun p => p.1 == k) = true
  · rw [setKey, if_pos h]
    exact jsRead_map_other k k' v hk e
  · rw [setKey, if_neg h]
    exact jsRead_append_fresh_right e _ k'
      (by intro p hp; simp at hp; subst hp; simp; exact fun hc => hk hc.symm)

theorem jsRead_objAssign_fresh (m : JsRec) (t : JsRec) (k : FieldName)
    (h : ∀ p ∈ m, p.1 ≠ k) : jsRead (objAssign t m) k = jsRead t k := by
  induction m generalizing t with
  | nil => rfl
  | cons p m ih =>
    rw [objAssign_cons, ih _ (fun q hq => h q (List.mem_cons_of_mem p hq))]
    exact jsRead_setKey_other t p.1 k p.2
      (fun hc => h p (List.mem_cons_self p m) hc.symm)

theorem jsRead_objAssign_of_mem (m : JsRec) (t : JsRec) (kv : FieldName × JsVal)
    (hnd : (m.map Prod.fst).Nodup) (hkv : kv ∈ m) :
    jsRead (objAssign t m) kv.1 = kv.2 := by
  induction m generalizing t with
  | nil => cases hkv
  | cons p m ih =>
    rw [List.map_cons] at hnd
    obtain ⟨hp, hnd'⟩ := List.nodup_cons.mp hnd
    cases List.mem_cons.mp hkv with
    | inl h =>
      subst h
      rw [objAssign_cons,
        jsRead_objAssign_fresh m _ kv.1
          (fun q hq hc => hp (hc ▸ List.mem_map_of_mem Prod.fst hq))]
      exact jsRead_setKey_self t kv.1 kv.2
    | inr h =>
      rw [objAssign_cons]
      exact ih _ hnd' h

theorem jsRead_of_mem_nodup (m : JsRec) (kv : FieldName × JsVal)
    (hnd : (m.map Prod.fst).Nodup) (hkv : kv ∈ m) : jsRead m kv.1 = kv.2 := by
  induction m with
  | nil => cases hkv
  | cons p m ih =>
    rw [List.map_cons] at hnd
    obtain ⟨hp, hnd'⟩ := List.nodup_cons.mp hnd
    cases List.mem_cons.mp hkv with
    | inl h =>
      subst h
      exact jsRead_cons_pos _ (by simp)
    | inr h =>
      have hne : (p.1 == kv.1) = false := by
        simp only [beq_eq_false_iff_ne, ne_eq]
        intro hc
        exact hp (hc ▸ List.mem_map_of_mem Prod.fst h)
      rw [jsRead_cons_neg _ hne]
      exact ih hnd' h

theorem jsRead_fresh (e : JsRec) (k : FieldName)
    (h : k ∉ e.map Prod.fst) : jsRead e k = none := by
  induction e with
  | nil => rfl
  | cons p e ih =>
    have hne : (p.1 == k) = false := by
      simp only [beq_eq_false_iff_ne, ne_eq]
      intro hc
      exact h (by simp [hc])
    rw [jsRead_cons_neg _ hne]
    exact ih (fun hc => h (by simp at hc ⊢; exact Or.inr hc))

theorem setKey_fresh (e : JsRec) (k : FieldName) (v : JsVal)
    (h : ∀ p ∈ e, (p.1 == k) = false) : setKey e k v = e ++ [(k, v)] := by
  rw [setKey, if_neg]
  intro hc
  obtain ⟨p, hp, hpk⟩ := List.any_eq_true.mp hc
  rw [h p hp] at hpk
  cases hpk

theorem foldl_setKey_fresh (f : FieldName → JsVal) (ks : List FieldName) (t : JsRec)
    (hnd : ks.Nodup) (hf : ∀ k ∈ ks, ∀ p ∈ t, p.1 ≠ k) :
    ks.foldl (fun obj k => setKey obj k (f k)) t = t ++ ks.map (fun k => (k, f k)) := by
  induction ks generalizing t with
  | nil => simp
  | cons k ks ih =>
    obtain ⟨hk, hnd'⟩ := List.nodup_cons.mp hnd
    rw [List.foldl_cons,
      setKey_fresh t k (f k)
        (fun p hp => by simpa using hf k (List.mem_cons_self k ks) p hp)]
    rw [ih (t ++ [(k, f k)]) hnd' ?hfresh]
    case hfresh =>
      intro k' hk' p hp
      rcases List.mem_append.mp hp with h1 | h1
      · exact hf k' (List.mem_cons_of_mem k hk') p h1
      · simp at h1
        subst h1
        exact fun hc : k = k' => hk (hc ▸ hk')
    rw [List.append_assoc]
    rfl

/-- With distinct captured field names, `toPlain` lists each captured field
once, in order, with its currently read value. -/
theorem toPlain_eq (e : Entity) (hnd : e.fieldNames.Nodup) :
    e.toPlain = e.fieldNames.map (fun k => (k, jsRead e.props k)) := by
  unfold Entity.toPlain
  rw [foldl_setKey_fresh _ _ [] hnd (by intro k _ p hp; cases hp), List.nil_append]

/-! Lemmas about the View operations. -/

/-- The order `orderBy fieldNames` induces on identifiers through their
materialised full records. -/
def idLe (m : Manager) (fieldNames : List FieldName) (i j : Id) : Prop :=
  entityLe fieldNames (fullEntity m i) (fullEntity m j)

instance idLeDec (m : Manager) (fieldNames : List FieldName) :
    DecidableRel (idLe m fieldNames) :=
  fun i j => entityLeDec fieldNames (fullEntity m i) (fullEntity m j)

instance idLeTotal (m : Manager) (fieldNames : List FieldName) :
    IsTotal Id (idLe m fieldNames) :=
  ⟨fun i j => le_total (sortKey fieldNames (fullEntity m i))
    (sortKey fieldNames (fullEntity m j))⟩

instance idLeTrans (m : Manager) (fieldNames : List FieldName) :
    IsTrans Id (idLe m fieldNames) :=
  ⟨fun _ _ _ h1 h2 => le_trans h1 h2⟩

/-- Under id-coherence, reading the id attribute back off materialised
entities recovers the identifiers. -/
theorem extract_map_fullEntity (q : QuerySet) (hq : idCoherent q) (l : List Id)
    (hl : ∀ x ∈ l, x ∈ q.idArr) :
    (l.map (fun i => fullEntity q.manager i)).map
      (fun e => jsRead e q.manager.idAttribute) = l := by
  rw [List.map_map]
  have h : ∀ x ∈ l, ((fun e => jsRead e q.manager.idAttribute) ∘
      fun i => fullEntity q.manager i) x = id x := fun x hx => hq x (hl x hx)
  rw [List.map_congr_left h, List.map_id]

/-- Both branches of `filter` (predicate dispatch and lookup-object match)
filter the full entities by `matchCriteria`. -/
theorem filter_entities_eq (q : QuerySet) (c : Criteria) :
    (q.filter c).idArr = (q.getFullEntities.filter (matchCriteria c)).map
      (fun e => jsRead e q.manager.idAttribute) := by
  cases c <;> rfl

theorem filter_idArr (q : QuerySet) (c : Criteria) (hq : idCoherent q) :
    (q.filter c).idArr
      = q.idArr.filter (fun i => matchCriteria c (fullEntity q.manager i)) := by
  rw [filter_entities_eq]
  unfold QuerySet.getFullEntities
  rw [List.filter_map]
  exact extract_map_fullEntity q hq _
    (fun x hx => (List.filter_sublist q.idArr).subset hx)

theorem exclude_idArr (q : QuerySet) (c : Criteria) (hq : idCoherent q) :
    (q.exclude c).idArr
      = q.idArr.filter (fun i => !(matchCriteria c (fullEntity q.manager i))) := by
  show (q.getFullEntities.filter fun e => !matchCriteria c e).map
      (fun e => jsRead e q.manager.idAttribute) = _
  unfold QuerySet.getFullEntities
  rw [List.filter_map]
  exact extract_map_fullEntity q hq _
    (fun x hx => (List.filter_sublist q.idArr).subset hx)

theorem orderBy_idArr (q : QuerySet) (fieldNames : List FieldName)
    (hq : idCoherent q) :
    (q.orderBy fieldNames).idArr
      = List.insertionSort (idLe q.manager fieldNames) q.idArr := by
  show (sortByAll fieldNames q.getFullEntities).map
      (fun e => jsRead e q.manager.idAttribute) = _
  unfold sortByAll QuerySet.getFullEntities
  rw [← List.map_insertionSort (idLe q.manager fieldNames) (entityLe fieldNames)
    (fun i => fullEntity q.manager i) q.idArr (fun a _ b _ => Iff.rfl)]
  exact extract_map_fullEntity q hq _
    (fun x hx => (List.mem_insertionSort (idLe q.manager fieldNames)).mp hx)

/-- Inserting an element never moves it past another element with the same
`p`-class when equal classes are related by the order. -/
theorem filter_orderedInsert {α : Type} (le : α → α → Prop) [DecidableRel le]
    (p : α → Bool) (a : α) (l : List α)
    (h : ∀ b ∈ l, p b = true → p a = true → le a b) :
    (List.orderedInsert le a l).filter p
      = if p a then a :: l.filter p else l.filter p := by
  induction l with
  | nil =>
    simp only [List.orderedInsert, List.filter_cons, List.filter_nil]
  | cons b l ih =>
    simp only [List.orderedInsert]
    by_cases hle : le a b
    · rw [if_pos hle, List.filter_cons]
    · rw [if_neg hle, List.filter_cons]
      by_cases hpb : p b = true
      · have hpa : ¬p a = true := fun hpa => hle (h b (List.mem_cons_self b l) hpb hpa)
        rw [if_pos hpb, ih (fun b' hb' => h b' (List.mem_cons_of_mem b hb')),
          if_neg hpa, if_neg hpa, List.filter_cons, if_pos hpb]
      · rw [if_neg hpb, ih (fun b' hb' => h b' (List.mem_cons_of_mem b hb'))]
        by_cases hpa : p a = true
        · rw [if_pos hpa, if_pos hpa, List.filter_cons, if_neg hpb]
        · rw [if_neg hpa, if_neg hpa, List.filter_cons, if_neg hpb]

/-- Stability of insertion sort, phrased through filters: the elements of any
`p`-class come out in their original relative order. -/
theorem filter_insertionSort {α : Type} (le : α → α → Prop) [DecidableRel le]
    (p : α → Bool) (h : ∀ x y, p x = true → p y = true → le x y) (l : List α) :
    (List.insertionSort le l).filter p = l.filter p := by
  induction l with
  | nil => rfl
  | cons a l ih =>
    simp only [List.insertionSort]
    rw [filter_orderedInsert le p a _ (fun b _ hb ha => h a b ha hb), ih,
      List.filter_cons]

/-! Concrete fixtures used by witnesses and counterexamples. -/

/-- A well-behaved store: id field "id", three records whose "name" values
10, 11, 12 stand for the spec's "a", "b", "c"; none overrides "id". -/
def mgrW : Manager :=
  { idAttribute := "id",
    entityMap := fun i =>
      if i = some 1 then some [("name", some 10)]
      else if i = some 2 then some [("name", some 11)]
      else if i = some 3 then some [("name", some 12)]
      else none,
    mutations := [] }

def qsW : QuerySet := ⟨mgrW, [some 3, some 1, some 2]⟩

def critW : Criteria := .fields [("name", some 11)]

/-- A QuerySet holding an identifier (9) absent from the record map. -/
def qsStale : QuerySet := ⟨mgrW, [some 9, some 1]⟩

/-- A store whose records override the id attribute: both stored records
carry `id: 7`, different from the identifiers 1 and 3 that index them. -/
def mgrOverride : Manager :=
  { idAttribute := "id",
    entityMap := fun i =>
      if i = some 1 then some [("id", some 7), ("a", some 0)]
      else if i = some 3 then some [("id", some 7), ("a", some 1)]
      else none,
    mutations := [] }

def qsOverride : QuerySet := ⟨mgrOverride, [some 1, some 3]⟩

def critOverride : Criteria := .fields [("a", some 0)]

/-- The same selection as `critOverride`, given as a predicate; `filter`
dispatches a function criterion directly, without the `match` helper. -/
def critPredOverride : Criteria := .pred (fun e => jsRead e "a" == some 0)

/-- A store where the record stored under identifier 1 redirects the id to 2,
an identifier bound to a different record. -/
def mgrIdShift : Manager :=
  { idAttribute := "id",
    entityMap := fun i =>
      if i = some 1 then some [("id", some 2), ("a", some 5)]
      else if i = some 2 then some [("a", some 0)]
      else if i = some 3 then some [("a", some 1)]
      else none,
    mutations := [] }

def qsIdShift : QuerySet := ⟨mgrIdShift, [some 1, some 3]⟩

/-! The claims. -/

/-- Claim C1, counterexample: with records that override the id attribute,
`filter` and `exclude` do not partition the View's identifiers — here both
results contain identifier 7, so their identifier sets are not disjoint. -/
theorem filter_exclude_overlap :
    ¬ List.Disjoint (qsOverride.filter critOverride).idArr
      (qsOverride.exclude critOverride).idArr :=
  fun h => h
    (show (some 7 : Id) ∈ (qsOverride.filter critOverride).idArr by decide)
    (by decide)

/-- Claim C1 (amended): for every View `v` and criteria `c`,
`v.filter(c).count() + v.exclude(c).count() == v.count()` holds
unconditionally, and provided no record materialised from `v` overrides the
manager's id attribute, the identifier sets of `v.filter(c)` and
`v.exclude(c)` are disjoint, their union is `v`'s identifier set, and each
result is a subsequence of `v`'s identifier sequence (preserving relative
order); `exclude` keeps exactly the entities that fail the same
`matchCriteria` test `filter` uses. -/
theorem filter_exclude_partition (q : QuerySet) (c : Criteria) :
    (q.filter c).count + (q.exclude c).count = q.count
    ∧ (idCoherent q →
        List.Disjoint (q.filter c).idArr (q.exclude c).idArr
        ∧ (∀ x, x ∈ q.idArr ↔ x ∈ (q.filter c).idArr ∨ x ∈ (q.exclude c).idArr)
        ∧ (q.filter c).idArr.Sublist q.idArr
        ∧ (q.exclude c).idArr.Sublist q.idArr) := by
  constructor
  · have h1 : (q.filter c).count
        = (q.getFullEntities.filter (matchCriteria c)).length := by
      show (q.filter c).idArr.length = _
      rw [filter_entities_eq q c]
      exact List.length_map _ _
    have h2 : (q.exclude c).count
        = (q.getFullEntities.filter (fun e => !matchCriteria c e)).length := by
      show ((q.getFullEntities.filter fun e => !matchCriteria c e).map
        (fun e => jsRead e q.manager.idAttribute)).length = _
      exact List.length_map _ _
    have hlen := (List.filter_append_perm (matchCriteria c) q.getFullEntities).length_eq
    rw [List.length_append] at hlen
    rw [h1, h2, hlen]
    exact List.length_map _ _
  · intro hq
    have hf := filter_idArr q c hq
    have he := exclude_idArr q c hq
    refine ⟨?_, ?_, ?_, ?_⟩
    · rw [hf, he]
      intro a ha hb
      have h1 := (List.mem_filter.mp ha).2
      have h2 := (List.mem_filter.mp hb).2
      simp [h1] at h2
    · intro x
      rw [hf, he]
      constructor
      · intro hx
        by_cases hm : matchCriteria c (fullEntity q.manager x) = true
        · exact Or.inl (List.mem_filter.mpr ⟨hx, hm⟩)
        · exact Or.inr (List.mem_filter.mpr ⟨hx, by simpa using hm⟩)
      · intro hx
        cases hx with
        | inl h => exact (List.mem_filter.mp h).1
        | inr h => exact (List.mem_filter.mp h).1
    · rw [hf]
      exact List.filter_sublist _
    · rw [he]
      exact List.filter_sublist _

/-- Claim C1, witness: a coherent concrete View on which the partition
theorem applies. -/
theorem filter_exclude_partition_witness :
    idCoherent qsW
    ∧ List.Disjoint (qsW.filter critW).idArr (qsW.exclude critW).idArr :=
  ⟨by decide, ((filter_exclude_partition qsW critW).2 (by decide)).1⟩

/-- Claim C2: `v.update(u)` and `v.delete()` leave the Manager's entity map,
its id attribute, and `v`'s own identifier sequence unchanged, and append
exactly one descriptor (`Update{idArr, updater}` resp. `Delete{idArr}`,
with `idArr` = `v`'s current identifier sequence) at the end of the
mutation log, keeping all earlier entries in order. -/
theorem queryset_update_delete_effect (q : QuerySet) (u : Updater) :
    ((q.update u).idArr = q.idArr
      ∧ (q.update u).manager.entityMap = q.manager.entityMap
      ∧ (q.update u).manager.idAttribute = q.manager.idAttribute
      ∧ (q.update u).manager.mutations
          = q.manager.mutations ++ [Mutation.update q.idArr u])
    ∧ (q.delete.idArr = q.idArr
      ∧ q.delete.manager.entityMap = q.manager.entityMap
      ∧ q.delete.manager.idAttribute = q.manager.idAttribute
      ∧ q.delete.manager.mutations
          = q.manager.mutations ++ [Mutation.delete q.idArr]) :=
  ⟨⟨rfl, rfl, rfl, rfl⟩, ⟨rfl, rfl, rfl, rfl⟩⟩

/-- Claim C8, counterexample: with records that override the id attribute,
`filter` produces a View containing identifier 7, which the original View
does not contain — a derived View can contain invented identifiers. -/
theorem filter_foreign_id :
    ¬ ((qsOverride.filter critPredOverride).idArr ⊆ qsOverride.idArr) :=
  fun h => absurd
    (h (show (some 7 : Id) ∈ (qsOverride.filter critPredOverride).idArr by decide))
    (by decide)

/-- Claim C8 (amended): provided no record materialised from `v` overrides
the manager's id attribute, every identifier of a View derived by `filter`,
`exclude`, `orderBy` or `all` is drawn from `v`'s identifier sequence. -/
theorem derived_views_subset (q : QuerySet) (hq : idCoherent q) :
    (∀ c, (q.filter c).idArr ⊆ q.idArr)
    ∧ (∀ c, (q.exclude c).idArr ⊆ q.idArr)
    ∧ (∀ fieldNames, (q.orderBy fieldNames).idArr ⊆ q.idArr)
    ∧ q.all.idArr ⊆ q.idArr := by
  refine ⟨?_, ?_, ?_, fun x hx => hx⟩
  · intro c
    rw [filter_idArr q c hq]
    exact (List.filter_sublist _).subset
  · intro c
    rw [exclude_idArr q c hq]
    exact (List.filter_sublist _).subset
  · intro fieldNames
    rw [orderBy_idArr q fieldNames hq]
    exact fun x hx => (List.mem_insertionSort _).mp hx

/-- Claim C8, witness: the subset property applied to a coherent concrete
View. -/
theorem derived_views_subset_witness :
    idCoherent qsW ∧ (qsW.orderBy ["name"]).idArr ⊆ qsW.idArr :=
  ⟨by decide, (derived_views_subset qsW (by decide)).2.2.1 ["name"]⟩

/-- An Entity wrapper fixture over the well-behaved store. -/
def entW : Entity := Entity.ofProps mgrW [("id", some 1), ("x", some 2)]

def mergeW : JsRec := [("x", some 9), ("y", some 4)]

/-- Claim C3: `Entity.update(m)` immediately merges `m` into the wrapper's
own field values — every entry of `m` reads back its merged value — leaves
the Manager's record map untouched, and appends exactly one Update
descriptor with `idArr == [w.getId()]` (the id as the updated wrapper now
reads it) and updater `m`. -/
theorem entity_update_effect (e : Entity) (m : JsRec)
    (hm : (m.map Prod.fst).Nodup) :
    (∀ kv ∈ m, jsRead (e.update (.merge m)).props kv.1 = kv.2)
    ∧ (e.update (.merge m)).manager.entityMap = e.manager.entityMap
    ∧ (e.update (.merge m)).manager.idAttribute = e.manager.idAttribute
    ∧ (e.update (.merge m)).manager.mutations
        = e.manager.mutations
          ++ [Mutation.update [(e.update (.merge m)).getId] (.merge m)] := by
  refine ⟨?_, rfl, rfl, rfl⟩
  intro kv hkv
  exact jsRead_objAssign_of_mem m e.props kv hm hkv

/-- Claim C3, witness: applying the update to a concrete wrapper merges the
field "x" to its new value. -/
theorem entity_update_effect_witness :
    (mergeW.map Prod.fst).Nodup
    ∧ jsRead (entW.update (.merge mergeW)).props "x" = some 9 :=
  ⟨by decide, (entity_update_effect entW mergeW (by decide)).1
    ("x", some 9) (by decide)⟩

/-- Claim C4, counterexample: when a stored record overrides the id
attribute (here the record under identifier 1 carries `id: 2`), sorting
twice by the same field list is not idempotent — the second sort works on
the redirected identifiers, whose records sort differently. -/
theorem orderBy_not_idempotent :
    ((qsIdShift.orderBy ["a"]).orderBy ["a"]).idArr
      ≠ (qsIdShift.orderBy ["a"]).idArr := by decide

/-- Claim C4 (amended): provided no record materialised from `v` overrides
the manager's id attribute, `v.orderBy(f)` sorts the identifiers ascending
by their records' values at the fields of `f` taken left to right as
tie-breakers, is a permutation of `v`'s identifiers, is stable (identifiers
with equal sort keys keep their relative order), and sorting twice by the
same field list is idempotent. -/
theorem orderBy_spec (q : QuerySet) (fieldNames : List FieldName)
    (hq : idCoherent q) :
    List.Sorted (idLe q.manager fieldNames) (q.orderBy fieldNames).idArr
    ∧ (q.orderBy fieldNames).idArr.Perm q.idArr
    ∧ (∀ ck : List (WithTop Int),
        (q.orderBy fieldNames).idArr.filter
            (fun i => decide (sortKey fieldNames (fullEntity q.manager i) = ck))
          = q.idArr.filter
            (fun i => decide (sortKey fieldNames (fullEntity q.manager i) = ck)))
    ∧ ((q.orderBy fieldNames).orderBy fieldNames).idArr
        = (q.orderBy fieldNames).idArr := by
  have hsort := orderBy_idArr q fieldNames hq
  refine ⟨?_, ?_, ?_, ?_⟩
  · rw [hsort]
    exact List.sorted_insertionSort _ _
  · rw [hsort]
    exact List.perm_insertionSort _ _
  · intro ck
    rw [hsort]
    exact filter_insertionSort (idLe q.manager fieldNames) _
      (fun x y hx hy =>
        le_of_eq ((of_decide_eq_true hx).trans (of_decide_eq_true hy).symm))
      q.idArr
  · have hq' : idCoherent (q.orderBy fieldNames) := by
      intro x hx
      rw [hsort] at hx
      exact hq x ((List.mem_insertionSort _).mp hx)
    rw [orderBy_idArr (q.orderBy fieldNames) fieldNames hq', hsort]
    exact (List.sorted_insertionSort (idLe q.manager fieldNames)
      q.idArr).insertionSort_eq

/-- Claim C4, witness: sorting a coherent concrete View twice by "name"
yields the same identifier order as sorting once. -/
theorem orderBy_spec_witness :
    idCoherent qsW
    ∧ ((qsW.orderBy ["name"]).orderBy ["name"]).idArr
        = (qsW.orderBy ["name"]).idArr :=
  ⟨by decide, (orderBy_spec qsW ["name"] (by decide)).2.2.2⟩

/-- Claim C5, counterexample: `update` called with an updater that is
neither a field-to-value mapping nor a transform function does not leave
the mutation log unchanged — the descriptor is appended anyway (and no
`InvalidUpdater` error exists anywhere in the code: `update` is total). -/
theorem update_invalid_appends_descriptor :
    ((⟨mgrW, [some 1]⟩ : QuerySet).update Updater.invalid).manager.mutations
      ≠ (⟨mgrW, [some 1]⟩ : QuerySet).manager.mutations :=
  fun h => absurd (congrArg List.length h) (by decide)

/-- Claim C5 (amended): `update` performs no validation of its argument:
an updater that is neither a field-to-value mapping nor a transform
function is still wrapped in exactly one Update descriptor and appended to
the log, both on a View and on an Entity wrapper (whose own fields it
leaves unchanged); no error is raised. -/
theorem update_no_validation (q : QuerySet) (e : Entity) :
    (q.update Updater.invalid).manager.mutations
        = q.manager.mutations ++ [Mutation.update q.idArr Updater.invalid]
    ∧ (e.update Updater.invalid).manager.mutations
        = e.manager.mutations ++ [Mutation.update [e.getId] Updater.invalid]
    ∧ (e.update Updater.invalid).props = e.props :=
  ⟨rfl, rfl, rfl⟩

/-- Claim C6: `getFullEntities()` has the same length and order as the
View's identifier sequence; the element at each position is the identifier
field merged with whatever the entity map holds for that identifier, and
when the map holds nothing the element is the record containing only the
identifier field (no error is raised: the function is total). -/
theorem getFullEntities_spec (q : QuerySet) :
    q.getFullEntities.length = q.idArr.length
    ∧ (∀ (i : Nat) (id : Id), q.idArr[i]? = some id →
        q.getFullEntities[i]?
          = some (objAssign [(q.manager.idAttribute, id)]
              ((q.manager.entityMap id).getD [])))
    ∧ (∀ (i : Nat) (id : Id), q.idArr[i]? = some id →
        q.manager.entityMap id = none →
        q.getFullEntities[i]? = some ([(q.manager.idAttribute, id)] : JsRec)) := by
  refine ⟨List.length_map _ _, ?_, ?_⟩
  · intro i id h
    show (q.idArr.map fun id => fullEntity q.manager id)[i]? = _
    rw [List.getElem?_map, h]
    rfl
  · intro i id h h2
    show (q.idArr.map fun id => fullEntity q.manager id)[i]? = _
    rw [List.getElem?_map, h]
    show some (fullEntity q.manager id) = _
    unfold fullEntity
    rw [h2]
    rfl

/-- Claim C6, witness: on a View holding the stale identifier 9 (absent from
the record map) the first element carries only the id field, and the second
is the merge for identifier 1. -/
theorem getFullEntities_spec_witness :
    (qsStale.idArr[0]? = some (some 9) ∧ mgrW.entityMap (some 9) = none
      ∧ qsStale.getFullEntities[0]? = some [("id", some 9)])
    ∧ (qsStale.idArr[1]? = some (some 1)
      ∧ qsStale.getFullEntities[1]?
          = some (objAssign [("id", some 1)] ((mgrW.entityMap (some 1)).getD []))) :=
  ⟨⟨by decide, by decide,
      (getFullEntities_spec qsStale).2.2 0 (some 9) (by decide) (by decide)⟩,
    ⟨by decide, (getFullEntities_spec qsStale).2.1 1 (some 1) (by decide)⟩⟩

/-- Reading a key off a list of key-value pairs built from distinct keys. -/
theorem jsRead_keyvals (ks : List FieldName) (f : FieldName → JsVal)
    (k : FieldName) (hnd : ks.Nodup) (hk : k ∈ ks) :
    jsRead (ks.map fun x => (x, f x)) k = f k := by
  have hkeys : ((ks.map fun x => (x, f x)).map Prod.fst) = ks := by
    rw [List.map_map]
    exact (List.map_congr_left fun a _ => rfl).trans (List.map_id ks)
  exact jsRead_of_mem_nodup _ (k, f k) (by rw [hkeys]; exact hnd)
    (List.mem_map_of_mem _ hk)

/-- Claim C7: `toPlain()` emits exactly the field names captured at
construction: its key list is the captured list, a key inside that list
reads back the wrapper's current (possibly updated) value, and any other
key — including one added by a later `update` — is absent and reads as
`undefined`. -/
theorem toPlain_spec (mgr : Manager) (props m : JsRec)
    (hp : (props.map Prod.fst).Nodup) :
    (((Entity.ofProps mgr props).update (.merge m)).toPlain.map Prod.fst
        = props.map Prod.fst)
    ∧ (∀ k ∈ props.map Prod.fst,
        jsRead ((Entity.ofProps mgr props).update (.merge m)).toPlain k
          = jsRead ((Entity.ofProps mgr props).update (.merge m)).props k)
    ∧ (∀ k, k ∉ props.map Prod.fst →
        jsRead ((Entity.ofProps mgr props).update (.merge m)).toPlain k
          = none) := by
  have hfn : ((Entity.ofProps mgr props).update (.merge m)).fieldNames
      = props.map Prod.fst := rfl
  have htp := toPlain_eq ((Entity.ofProps mgr props).update (.merge m))
    (by rw [hfn]; exact hp)
  rw [hfn] at htp
  refine ⟨?_, ?_, ?_⟩
  · rw [htp, List.map_map]
    simp [Function.comp]
  · intro k hk
    rw [htp]
    exact jsRead_keyvals (props.map Prod.fst) _ k hp hk
  · intro k hk
    rw [htp]
    apply jsRead_fresh
    rw [List.map_map]
    simpa [Function.comp] using hk

/-- Claim C7, witness: after updating "x" (captured) and adding "y" (not
captured), `toPlain` emits exactly the captured keys, the updated "x", and
no "y". -/
theorem toPlain_spec_witness :
    (([("id", some 1), ("x", some 2)].map
        (Prod.fst (α := FieldName) (β := JsVal))).Nodup)
    ∧ ((Entity.ofProps mgrW [("id", some 1), ("x", some 2)]).update
          (.merge mergeW)).toPlain.map Prod.fst = ["id", "x"]
    ∧ jsRead ((Entity.ofProps mgrW [("id", some 1), ("x", some 2)]).update
        (.merge mergeW)).toPlain "y" = none :=
  ⟨by decide,
    (toPlain_spec mgrW [("id", some 1), ("x", some 2)] mergeW (by decide)).1,
    (toPlain_spec mgrW [("id", some 1), ("x", some 2)] mergeW (by decide)).2.2
      "y" (by decide)⟩

/-- Claim C9: when the entity map's record for an identifier itself contains
the id attribute, the element `getFullEntities()` produces for that
position reads the stored record's value at the id attribute — the stored
fields overwrite the injected identifier field in the merge. -/
theorem getFullEntities_id_override (q : QuerySet) (i : Nat) (id : Id)
    (r : JsRec)
    (h1 : q.idArr[i]? = some id)
    (h2 : q.manager.entityMap id = some r)
    (h3 : (r.map Prod.fst).Nodup)
    (h4 : q.manager.idAttribute ∈ r.map Prod.fst) :
    ∃ e, q.getFullEntities[i]? = some e
      ∧ jsRead e q.manager.idAttribute = jsRead r q.manager.idAttribute := by
  refine ⟨fullEntity q.manager id, ?_, ?_⟩
  · show (q.idArr.map fun id => fullEntity q.manager id)[i]? = _
    rw [List.getElem?_map, h1]
    rfl
  · obtain ⟨kv, hkv, hk⟩ := List.mem_map.mp h4
    unfold fullEntity
    rw [h2, Option.getD_some, ← hk]
    exact (jsRead_objAssign_of_mem r _ kv h3 hkv).trans
      (jsRead_of_mem_nodup r kv h3 hkv).symm

/-- Claim C9, witness: the record stored under identifier 1 carries
`id: 7`, and the materialised element reads 7 at the id field, like the
stored record and unlike the indexing identifier 1. -/
theorem getFullEntities_id_override_witness :
    (qsOverride.idArr[0]? = some (some 1)
      ∧ qsOverride.manager.entityMap (some 1)
          = some [("id", some 7), ("a", some 0)])
    ∧ ∃ e, qsOverride.getFullEntities[0]? = some e
        ∧ jsRead e "id" = jsRead [("id", some 7), ("a", some 0)] "id" :=
  ⟨⟨by decide, by decide⟩,
    getFullEntities_id_override qsOverride 0 (some 1)
      [("id", some 7), ("a", some 0)] (by decide) (by decide) (by decide)
      (by decide)⟩

/-- Claim C10: `Entity.update` merges before computing the descriptor's
identifier: when the merge object assigns a new value `v` to the id
attribute, the wrapper's id reads `v` afterwards and the single appended
Update descriptor carries `idArr = [v]`, the post-merge identifier. -/
theorem entity_update_id_in_descriptor (e : Entity) (m : JsRec) (v : JsVal)
    (hm : (m.map Prod.fst).Nodup) (hv : (e.manager.idAttribute, v) ∈ m) :
    (e.update (.merge m)).getId = v
    ∧ (e.update (.merge m)).manager.mutations
        = e.manager.mutations ++ [Mutation.update [v] (.merge m)] := by
  have hid : jsRead (objAssign e.props m) e.manager.idAttribute = v :=
    jsRead_objAssign_of_mem m e.props (e.manager.idAttribute, v) hm hv
  refine ⟨hid, ?_⟩
  show e.manager.mutations
      ++ [Mutation.update [jsRead (objAssign e.props m) e.manager.idAttribute]
        (Updater.merge m)] = _
  rw [hid]

/-- Claim C10, witness: merging `id: 5` into a wrapper whose id was 1 makes
the appended descriptor carry `idArr = [5]`. -/
theorem entity_update_id_in_descriptor_witness :
    (([("id", (some 5 : JsVal))].map Prod.fst).Nodup
      ∧ (entW.manager.idAttribute, (some 5 : JsVal)) ∈
          [("id", (some 5 : JsVal))])
    ∧ (entW.update (.merge [("id", some 5)])).getId = some 5 :=
  ⟨⟨by decide, by decide⟩,
    (entity_update_id_in_descriptor entW [("id", some 5)] (some 5)
      (by decide) (by decide)).1⟩

end ReduxOrm
